import Mathlib

/-!
Shallow embedding of the matcher repository.

The Rust sources embedded here:
* src/matching.rs : struct Graph (nodes, edges) with add_edge, add_node,
  edge, edges_for, update_from_matching and the greedy matching() pass;
* src/db.rs : the SQLite-backed Database, restricted to the tables and
  statements that the claims touch (people.waiting, edges, matches,
  generations) — each SQL statement is modelled by the corresponding pure
  transformation of those tables, with tables as association lists in
  row order;
* src/web.rs : the trigger_matching orchestrator.

Rust machine integers (u32/usize) are modelled as Nat: none of the claim
statements exercise overflow and the source does no wrapping arithmetic.
A Rust panic (assert! failure or out-of-bounds index) is modelled by
returning none from an Option-valued function.
-/

structure Graph where
  nodes : List Nat
  edges : List (List Nat)
deriving Repr, DecidableEq

namespace Graph

/-- Rust: Graph::add_edge.  `assert!(self.nodes.len() > id1)` and
`assert!(self.nodes.len() > id2)` are the only checks; a failed assert is
a panic, modelled as `none`.  There is no `id1 != id2` check in the
source. -/
def add_edge (g : Graph) (id1 id2 weight : Nat) : Option Graph :=
  if id1 < g.nodes.length then
    if id2 < g.nodes.length then
      let e1 := g.edges.set id1 ((g.edges.getD id1 []).set id2 weight)
      some { g with edges := e1.set id2 ((e1.getD id2 []).set id1 weight) }
    else none
  else none

/-- Rust: Graph::add_node.  Pushes the person, appends a 0 to every
existing row, then pushes a fresh all-zero row of the new length. -/
def add_node (g : Graph) (person : Nat) : Nat × Graph :=
  (g.nodes.length,
   { nodes := g.nodes ++ [person],
     edges := (g.edges.map (fun row => row ++ [0])) ++
              [List.replicate (g.nodes.length + 1) 0] })

/-- Rust: Graph::edge, `self.edges[id1][id2]`. -/
def edge (g : Graph) (id1 id2 : Nat) : Nat :=
  (g.edges.getD id1 []).getD id2 0

/-- Rust: Graph::edges_for, `self.edges[id].iter().enumerate().map(|(b, w)| (b, *w))`. -/
def edges_for (g : Graph) (id : Nat) : List (Nat × Nat) :=
  (g.edges.getD id []).enum

/-- One `self.edges[a][b] += 1` statement of update_from_matching; the two
indexings panic (none) when out of bounds. -/
def bump_entry (edges : List (List Nat)) (a b : Nat) : Option (List (List Nat)) :=
  match edges.get? a with
  | none => none
  | some row =>
    match row.get? b with
    | none => none
    | some w => some (edges.set a (row.set b (w + 1)))

/-- Rust: Graph::update_from_matching. -/
def update_from_matching (g : Graph) (matching : List (Nat × Nat)) : Option Graph :=
  matching.foldlM
    (fun g2 ab => do
      let e1 ← bump_entry g2.edges ab.1 ab.2
      let e2 ← bump_entry e1 ab.2 ab.1
      some { g2 with edges := e2 })
    g

/-- Lookup in the `seen` vector (`vec![false; nodes.len()]`). -/
def seenGet (seen : List Bool) (k : Nat) : Bool :=
  seen.getD k false

/-- Rust: the `other_weights` candidate list inside Graph::matching —
`edges_for(id)` filtered by `!seen[e.0]` and then by `id != e.0`. -/
def other_weights (g : Graph) (seen : List Bool) (id : Nat) : List (Nat × Nat) :=
  ((g.edges_for id).filter (fun e => ! seenGet seen e.1)).filter (fun e => id != e.1)

/-- The fold at the heart of `Iterator::min_by_key`: keep the current
best, replacing it only on a strictly smaller key. -/
def minFold (t : List (Nat × Nat)) (best : Nat × Nat) : Nat × Nat :=
  t.foldl (fun b e => if e.2 < b.2 then e else b) best

/-- Rust: `Iterator::min_by_key(|e| e.1)` on the candidate list; among
equally minimal keys the first element is returned, as the std library
documents. -/
def min_by_key : List (Nat × Nat) → Option (Nat × Nat)
  | [] => none
  | x :: xs => some (minFold xs x)

/-- The `for id in 0..nodes.len()` loop of Graph::matching, with `fuel`
many iterations left and `id` the current index.  The second component
counts how many times the `else` arm (`matchings.push((other_node.0,
Some(id)))`) was taken. -/
def matchingAux (g : Graph) (fuel id : Nat) (seen : List Bool) :
    List (Nat × Option Nat) × Nat :=
  match fuel with
  | 0 => ([], 0)
  | fuel2 + 1 =>
    if seenGet seen id then matchingAux g fuel2 (id + 1) seen
    else
      match min_by_key (other_weights g seen id) with
      | some other =>
        let rest := matchingAux g fuel2 (id + 1) ((seen.set id true).set other.1 true)
        if id < other.1 then ((id, some other.1) :: rest.1, rest.2)
        else ((other.1, some id) :: rest.1, rest.2 + 1)
      | none =>
        let rest := matchingAux g fuel2 (id + 1) seen
        ((id, none) :: rest.1, rest.2)

/-- Rust: Graph::matching. -/
def matching (g : Graph) : List (Nat × Option Nat) :=
  (matchingAux g g.nodes.length 0 (List.replicate g.nodes.length false)).1

/-- How many times a run of Graph::matching executes the swapped-pair
branch `matchings.push((other_node.0, Some(id)))`. -/
def matchingSwapCount (g : Graph) : Nat :=
  (matchingAux g g.nodes.length 0 (List.replicate g.nodes.length false)).2

/-- Well-formedness of the edges matrix: square, of side the node count.
Every Graph reachable through the public API satisfies this. -/
abbrev Wf (g : Graph) : Prop :=
  g.edges.length = g.nodes.length ∧ ∀ row ∈ g.edges, row.length = g.nodes.length

/-- Symmetry of the stored weights. -/
abbrev Symm (g : Graph) : Prop :=
  ∀ i, i < g.nodes.length → ∀ j, j < g.nodes.length → g.edge i j = g.edge j i

/-- All indices named by a matching result: both pair members plus any
singleton. -/
def coveredIdx (ms : List (Nat × Option Nat)) : List Nat :=
  ms.bind (fun m => m.1 :: m.2.toList)

/-- Number of not-yet-seen indices at or above `id`. -/
def unseenCount (seen : List Bool) (id : Nat) : Nat :=
  (List.range seen.length).countP (fun k => decide (id ≤ k) && ! seenGet seen k)

end Graph

structure Database where
  people : List (Nat × Bool)
  edges : List ((Nat × Nat) × Nat)
  matchRows : List (Nat × Nat × Option Nat)
  generations : List Nat
deriving Repr, DecidableEq

namespace Database

/-- Rust: Database::waiters, `select id from people WHERE waiting = TRUE`. -/
def waiters (db : Database) : List Nat :=
  (db.people.filter (fun q => q.2)).map (fun q => q.1)

/-- The `INSERT INTO edges ... ON CONFLICT (person1, person2) DO UPDATE SET
weight = weight + 1` upsert: bump the row keyed by exactly `(a, b)`, or
append a fresh row of weight 1. -/
def upsert_edge : List ((Nat × Nat) × Nat) → Nat → Nat → List ((Nat × Nat) × Nat)
  | [], a, b => [((a, b), 1)]
  | r :: rs, a, b =>
    if r.1 = (a, b) then (r.1, r.2 + 1) :: rs else r :: upsert_edge rs a b

/-- Rust: Database::add_matching.  Inserts the match row; when a partner
is present it upserts the `(p1id, p2id)` edge row and clears both waiting
flags, otherwise it clears only `p1id`'s flag. -/
def add_matching (db : Database) (p1id : Nat) (p2id : Option Nat) (generation : Nat) :
    Database :=
  let withRow := { db with matchRows := db.matchRows ++ [(generation, p1id, p2id)] }
  match p2id with
  | some p2 =>
    { withRow with
      edges := upsert_edge withRow.edges p1id p2,
      people := withRow.people.map
        (fun q => if q.1 = p1id ∨ q.1 = p2 then (q.1, false) else q) }
  | none =>
    { withRow with
      people := withRow.people.map
        (fun q => if q.1 = p1id then (q.1, false) else q) }

/-- Rust: Database::add_matching_generation, `insert into generations (id)
values ((select max(id) + 1 from generations)) returning id`; on an empty
table SQLite assigns 1, i.e. the maximum over the empty table is taken
as 0. -/
def add_matching_generation (db : Database) : Nat × Database :=
  let id := db.generations.foldl max 0 + 1
  (id, { db with generations := db.generations ++ [id] })

/-- Rust: Database::edges_for — scan the whole edges table and keep the
rows whose two endpoints both lie in the waiter set, as (p1, p2, weight)
triples. -/
def edges_for (db : Database) (ws : List Nat) : List (Nat × Nat × Nat) :=
  (db.edges.filter (fun r => ws.contains r.1.1 && ws.contains r.1.2)).map
    (fun r => (r.1.1, r.1.2, r.2))

/-- Total stored weight under the exact ordered key `(a, b)` (sum of the
weights of all edges rows with that key; with the primary-key invariant
there is at most one such row). -/
def keyWeight (db : Database) (a b : Nat) : Nat :=
  ((db.edges.filter (fun r => decide (r.1 = (a, b)))).map (fun r => r.2)).sum

/-- Total stored weight between `a` and `b` across both orientations. -/
def totalWeight (db : Database) (a b : Nat) : Nat :=
  keyWeight db a b + keyWeight db b a

end Database

/-- The graph-building phase of trigger_matching (web.rs): one add_node
per waiter in order, then one add_edge per row returned by
Database::edges_for, translating identifiers through the waiter-to-index
mapping (position in the waiter list). -/
def build_graph (ws : List Nat) (edges : List (Nat × Nat × Nat)) : Option Graph :=
  let g0 := ws.foldl (fun g w => (g.add_node w).2) ⟨[], []⟩
  edges.foldlM (fun g e => g.add_edge (ws.indexOf e.1) (ws.indexOf e.2.1) e.2.2) g0

/-- Rust: trigger_matching (web.rs).  Empty waiting set: return with no
store effect.  Otherwise: build the graph, run matching(), allocate a
generation, and record every matching entry through
Database::add_matching with indices translated back to identifiers. -/
def trigger_matching (db : Database) : Option Database :=
  let ws := db.waiters
  if ws.isEmpty then some db
  else
    match build_graph ws (db.edges_for ws) with
    | none => none
    | some g =>
      let m := g.matching
      let gd := db.add_matching_generation
      some (m.foldl
        (fun d p =>
          d.add_matching (ws.getD p.1 0) (p.2.map (fun j => ws.getD j 0)) gd.1)
        gd.2)

/-- The four-node tie-break graph of the spec, built through the public
API: w(0,1)=5, w(0,2)=0, w(0,3)=9, w(1,2)=9, w(1,3)=0, w(2,3)=5. -/
def tieGraph : Option Graph := do
  let g := [10, 11, 12, 13].foldl (fun g w => (Graph.add_node g w).2) ⟨[], []⟩
  let g ← g.add_edge 0 1 5
  let g ← g.add_edge 0 2 0
  let g ← g.add_edge 0 3 9
  let g ← g.add_edge 1 2 9
  let g ← g.add_edge 1 3 0
  g.add_edge 2 3 5

/-- Three-node all-zero-weight graph, a concrete odd-count input. -/
def oddGraph : Graph :=
  ⟨[1, 2, 3], [[0, 0, 0], [0, 0, 0], [0, 0, 0]]⟩

/-- Two graphs agreeing off the diagonal but not on it. -/
def diagGraphA : Graph :=
  ⟨[0, 0], [[7, 1], [1, 9]]⟩

def diagGraphB : Graph :=
  ⟨[0, 0], [[0, 1], [1, 0]]⟩

/-- A single-node graph built through the API, input of the add_edge
self-index counterexample. -/
def oneNodeGraph : Graph :=
  (Graph.add_node ⟨[], []⟩ 7).2

/-- Two-node graph: edges_for on it already shows the self entry. -/
def twoNodeGraph : Graph :=
  ⟨[4, 5], [[0, 3], [3, 0]]⟩

/-- A graph witnessing an equal-weight tie between indices 1 and 2. -/
def tieWitnessGraph : Graph :=
  ⟨[0, 0, 0], [[0, 4, 4], [4, 0, 0], [4, 0, 0]]⟩

/-- Database with one stored (1,2) edge row: the orientation
counterexample input. -/
def dbOriented : Database :=
  ⟨[], [((1, 2), 1)], [], []⟩

/-- Database with a weight-3 row between 1 and 2, witness input. -/
def dbWeight3 : Database :=
  ⟨[(1, true), (2, true)], [((1, 2), 3)], [], []⟩

/-- Database with two waiting people, witness input for a full round. -/
def dbTwoWaiters : Database :=
  ⟨[(1, true), (2, true)], [], [], []⟩

/-- Database with one non-waiting person: empty-round witness input. -/
def dbNoWaiters : Database :=
  ⟨[(1, false)], [], [], []⟩

/-! Generic list lemmas used throughout. -/

lemma getD_set_self {α} (l : List α) (k : Nat) (v d : α) (h : k < l.length) :
    (l.set k v).getD k d = v := by
  rw [List.getD_eq_getD_get?, List.get?_set_eq_of_lt _ h]
  rfl

lemma getD_set_ne {α} (l : List α) (k k2 : Nat) (v d : α) (h : k ≠ k2) :
    (l.set k v).getD k2 d = l.getD k2 d := by
  rw [List.getD_eq_getD_get?, List.get?_set_ne _ _ h, ← List.getD_eq_getD_get?]

lemma getD_map {α β} (f : α → β) (l : List α) (k : Nat) (d : β) (d2 : α)
    (h : k < l.length) :
    (l.map f).getD k d = f (l.getD k d2) := by
  rw [List.getD_eq_getElem _ _ (by simpa using h), List.getD_eq_getElem _ _ h]
  simp

lemma getD_mem {α} (l : List α) (k : Nat) (d : α) (h : k < l.length) :
    l.getD k d ∈ l := by
  rw [List.getD_eq_getElem _ _ h]
  exact List.getElem_mem h

lemma countP_flip_one {l : List Nat} (hl : l.Nodup) {x : Nat} (hx : x ∈ l)
    {p q : Nat → Bool} (hagree : ∀ y ∈ l, y ≠ x → p y = q y)
    (hp : p x = true) (hq : q x = false) :
    l.countP p = l.countP q + 1 := by
  induction l with
  | nil => cases hx
  | cons a t ih =>
    rw [List.countP_cons, List.countP_cons]
    rcases List.mem_cons.mp hx with hax | hxt
    · subst hax
      have hnx : x ∉ t := (List.nodup_cons.mp hl).1
      have ht : t.countP p = t.countP q := by
        apply List.countP_congr
        intro y hy
        have hyx : y ≠ x := fun he => hnx (he ▸ hy)
        rw [hagree y (List.mem_cons_of_mem _ hy) hyx]
      rw [ht, hp, hq]
      simp
    · have hax : a ≠ x := by
        rintro rfl
        exact (List.nodup_cons.mp hl).1 hxt
      have hpa : p a = q a := hagree a (List.mem_cons_self a t) hax
      rw [ih (List.nodup_cons.mp hl).2 hxt
        (fun y hy hyx => hagree y (List.mem_cons_of_mem _ hy) hyx), hpa]
      omega

lemma countP_eq_zero_of_false {l : List Nat} {p : Nat → Bool}
    (h : ∀ y ∈ l, p y = false) : l.countP p = 0 := by
  induction l with
  | nil => simp
  | cons a t ih =>
    rw [List.countP_cons, h a (List.mem_cons_self a t),
      ih (fun y hy => h y (List.mem_cons_of_mem _ hy))]
    simp

lemma mem_enum_getD (l : List Nat) (x : Nat × Nat) :
    x ∈ l.enum ↔ x.1 < l.length ∧ l.getD x.1 0 = x.2 := by
  rw [List.mem_enum_iff_getElem?]
  constructor
  · intro h
    obtain ⟨h1, h2⟩ := List.getElem?_eq_some.mp h
    exact ⟨h1, by rw [List.getD_eq_getElem _ _ h1, h2]⟩
  · rintro ⟨h1, h2⟩
    rw [List.getElem?_eq_getElem h1, ← List.getD_eq_getElem _ _ h1, h2]

/-! seenGet facts. -/

lemma seenGet_set_self (seen : List Bool) (k : Nat) (b : Bool) (h : k < seen.length) :
    Graph.seenGet (seen.set k b) k = b :=
  getD_set_self seen k b false h

lemma seenGet_set_ne (seen : List Bool) (k k2 : Nat) (b : Bool) (h : k ≠ k2) :
    Graph.seenGet (seen.set k b) k2 = Graph.seenGet seen k2 :=
  getD_set_ne seen k k2 b false h

lemma seenGet_replicate (n k : Nat) :
    Graph.seenGet (List.replicate n false) k = false := by
  unfold Graph.seenGet
  rcases Nat.lt_or_ge k n with h | h
  · rw [List.getD_eq_getElem _ _ (by simpa using h)]
    simp
  · rw [List.getD_eq_default _ _ (by simpa using h)]

/-! The min_by_key selection: membership, minimality, and first-wins
tie-breaking on candidate lists with strictly ascending indices. -/

lemma minFold_spec : ∀ (t : List (Nat × Nat)) (best : Nat × Nat),
    ((best :: t).map Prod.fst).Pairwise (· < ·) →
    Graph.minFold t best ∈ best :: t ∧
    (Graph.minFold t best = best ∨ (Graph.minFold t best).2 < best.2) ∧
    ∀ e2 ∈ best :: t,
      (Graph.minFold t best).2 ≤ e2.2 ∧
      (e2.2 = (Graph.minFold t best).2 → (Graph.minFold t best).1 ≤ e2.1) := by
  intro t
  induction t with
  | nil =>
    intro best _
    refine ⟨List.mem_cons_self _ _, Or.inl rfl, ?_⟩
    intro e2 he2
    have he : e2 = best := by simpa using he2
    subst he
    exact ⟨le_refl _, fun _ => le_refl _⟩
  | cons e t ih =>
    intro best hpw
    rw [List.map_cons, List.pairwise_cons] at hpw
    obtain ⟨hbest, hrest⟩ := hpw
    by_cases he : e.2 < best.2
    · have hstep : Graph.minFold (e :: t) best = Graph.minFold t e := by
        unfold Graph.minFold
        rw [List.foldl_cons, if_pos he]
      have hspec := ih e (by rw [List.map_cons]; exact hrest)
      rw [hstep]
      obtain ⟨hmem, hdisj, hall⟩ := hspec
      have hr2 : (Graph.minFold t e).2 < best.2 := by
        rcases hdisj with hd | hd
        · rw [hd]; exact he
        · exact lt_trans hd he
      refine ⟨List.mem_cons_of_mem _ hmem, Or.inr hr2, ?_⟩
      intro e2 he2
      rcases List.mem_cons.mp he2 with hb | he2t
      · subst hb
        exact ⟨le_of_lt hr2, fun habs => absurd habs.symm (ne_of_lt hr2)⟩
      · exact hall e2 he2t
    · have hstep : Graph.minFold (e :: t) best = Graph.minFold t best := by
        unfold Graph.minFold
        rw [List.foldl_cons, if_neg he]
      have hbe : best.2 ≤ e.2 := le_of_not_lt he
      have hpw2 : ((best :: t).map Prod.fst).Pairwise (· < ·) := by
        rw [List.map_cons, List.pairwise_cons]
        refine ⟨?_, (List.pairwise_cons.mp hrest).2⟩
        intro b2 hb2
        exact hbest b2 (List.mem_cons_of_mem _ hb2)
      have hspec := ih best hpw2
      rw [hstep]
      obtain ⟨hmem, hdisj, hall⟩ := hspec
      have hmem2 : Graph.minFold t best ∈ best :: e :: t := by
        rcases List.mem_cons.mp hmem with hb | hbt
        · rw [hb]; exact List.mem_cons_self _ _
        · exact List.mem_cons_of_mem _ (List.mem_cons_of_mem _ hbt)
      refine ⟨hmem2, hdisj, ?_⟩
      intro e2 he2
      rcases List.mem_cons.mp he2 with hb | he2t
      · subst hb
        exact hall e2 (List.mem_cons_self _ _)
      rcases List.mem_cons.mp he2t with hb | he2t2
      · subst hb
        have h1 : (Graph.minFold t best).2 ≤ e2.2 := by
          have := (hall best (List.mem_cons_self _ _)).1
          exact le_trans this hbe
        refine ⟨h1, ?_⟩
        intro htie
        have hrb : Graph.minFold t best = best := by
          rcases hdisj with hd | hd
          · exact hd
          · exfalso
            have : best.2 ≤ (Graph.minFold t best).2 := htie ▸ hbe
            omega
        rw [hrb]
        exact le_of_lt (hbest e2.1 (by rw [List.map_cons]; exact List.mem_cons_self _ _))
      · exact hall e2 (List.mem_cons_of_mem _ he2t2)

lemma min_by_key_none (l : List (Nat × Nat)) :
    Graph.min_by_key l = none ↔ l = [] := by
  cases l <;> simp [Graph.min_by_key]

lemma min_by_key_spec (l : List (Nat × Nat))
    (hpw : (l.map Prod.fst).Pairwise (· < ·)) (e : Nat × Nat)
    (he : Graph.min_by_key l = some e) :
    e ∈ l ∧ ∀ e2 ∈ l, e.2 ≤ e2.2 ∧ (e2.2 = e.2 → e.1 ≤ e2.1) := by
  cases l with
  | nil => cases he
  | cons x xs =>
    have hx : e = Graph.minFold xs x := by
      simpa [Graph.min_by_key] using he.symm
    obtain ⟨hmem, _, hall⟩ := minFold_spec xs x hpw
    subst hx
    exact ⟨hmem, hall⟩

/-! The candidate list other_weights: ascending indices, membership. -/

lemma other_weights_pairwise (g : Graph) (seen : List Bool) (id : Nat) :
    ((Graph.other_weights g seen id).map Prod.fst).Pairwise (· < ·) := by
  have h0 : (((g.edges.getD id []).enum).map Prod.fst).Pairwise (· < ·) := by
    rw [List.enum_map_fst]
    exact List.pairwise_lt_range _
  exact h0.sublist
    (List.Sublist.map _ ((List.filter_sublist _).trans (List.filter_sublist _)))

lemma mem_other_weights (g : Graph) (seen : List Bool) (id : Nat) (e : Nat × Nat) :
    e ∈ Graph.other_weights g seen id ↔
      (e.1 < (g.edges.getD id []).length ∧ (g.edges.getD id []).getD e.1 0 = e.2 ∧
       Graph.seenGet seen e.1 = false ∧ id ≠ e.1) := by
  unfold Graph.other_weights Graph.edges_for
  simp only [List.mem_filter, mem_enum_getD, bne_iff_ne, Bool.not_eq_true']
  tauto

/-! A run over an all-seen suffix emits nothing. -/

lemma matchingAux_allSeen (g : Graph) : ∀ (fuel id : Nat) (seen : List Bool),
    (∀ k, id ≤ k → k < id + fuel → Graph.seenGet seen k = true) →
    Graph.matchingAux g fuel id seen = ([], 0) := by
  intro fuel
  induction fuel with
  | zero => intro id seen _; rfl
  | succ fuel2 ih =>
    intro id seen h
    have hs : Graph.seenGet seen id = true := h id (le_refl id) (by omega)
    show Graph.matchingAux g (fuel2 + 1) id seen = ([], 0)
    rw [Graph.matchingAux]
    simp only [hs, if_true]
    exact ih (id + 1) seen (fun k h1 h2 => h k (by omega) (by omega))

/-! Arithmetic of the unseen-index count. -/

lemma unseenCount_skip (seen : List Bool) (id : Nat)
    (hs : Graph.seenGet seen id = true) :
    Graph.unseenCount seen id = Graph.unseenCount seen (id + 1) := by
  unfold Graph.unseenCount
  apply List.countP_congr
  intro k _
  by_cases hk : k = id
  · subst hk
    simp [hs]
  · have hdec : decide (id ≤ k) = decide (id + 1 ≤ k) :=
      decide_eq_decide.mpr (by omega)
    rw [hdec]

lemma unseenCount_unseen_cons (seen : List Bool) (id : Nat)
    (h : id < seen.length) (hs : Graph.seenGet seen id = false) :
    Graph.unseenCount seen id = Graph.unseenCount seen (id + 1) + 1 := by
  unfold Graph.unseenCount
  apply countP_flip_one (List.nodup_range _) (List.mem_range.mpr h)
  · intro y _ hy
    have hdec : decide (id ≤ y) = decide (id + 1 ≤ y) :=
      decide_eq_decide.mpr (by omega)
    rw [hdec]
  · simp [hs]
  · simp

lemma unseenCount_set2 (seen : List Bool) (id b2 : Nat) (hlt : id < b2)
    (hb2 : b2 < seen.length) (hb2unseen : Graph.seenGet seen b2 = false) :
    Graph.unseenCount seen (id + 1) =
      Graph.unseenCount ((seen.set id true).set b2 true) (id + 1) + 1 := by
  unfold Graph.unseenCount
  have hlen : ((seen.set id true).set b2 true).length = seen.length := by simp
  rw [hlen]
  apply countP_flip_one (List.nodup_range _) (List.mem_range.mpr hb2)
  · intro y _ hy
    by_cases hyid : y = id
    · subst hyid
      have hdec : decide (y + 1 ≤ y) = false := decide_eq_false (by omega)
      rw [hdec]
      simp
    · rw [seenGet_set_ne (seen.set id true) b2 y true (fun he => hy he.symm),
        seenGet_set_ne seen id y true (fun he => hyid he.symm)]
  · have h1 : decide (id + 1 ≤ b2) = true := decide_eq_true (by omega)
    rw [h1, hb2unseen]
    rfl
  · have h2 : Graph.seenGet ((seen.set id true).set b2 true) b2 = true :=
      seenGet_set_self _ _ _ (by simpa using hb2)
    rw [h2]
    simp

lemma unseenCount_single (seen : List Bool) (id : Nat)
    (h : id < seen.length) (hs : Graph.seenGet seen id = false)
    (hall : ∀ k, k < seen.length → k ≠ id → Graph.seenGet seen k = true) :
    Graph.unseenCount seen id = 1 := by
  unfold Graph.unseenCount
  have hz : (List.range seen.length).countP (fun _ => false) = 0 :=
    countP_eq_zero_of_false (fun y _ => rfl)
  have hstep :
      (List.range seen.length).countP
          (fun k => decide (id ≤ k) && ! Graph.seenGet seen k) =
        (List.range seen.length).countP (fun _ => false) + 1 := by
    apply countP_flip_one (List.nodup_range _) (List.mem_range.mpr h)
    · intro y hy hyid
      simp [hall y (List.mem_range.mp hy) hyid]
    · have h1 : decide (id ≤ id) = true := decide_eq_true (le_refl id)
      rw [h1, hs]
      rfl
    · rfl
  rw [hstep, hz]

lemma unseenCount_replicate (n : Nat) :
    Graph.unseenCount (List.replicate n false) 0 = n := by
  unfold Graph.unseenCount
  have hcount :
      (List.range (List.replicate n false).length).countP
        (fun k => decide (0 ≤ k) && ! Graph.seenGet (List.replicate n false) k) =
      (List.range (List.replicate n false).length).length := by
    rw [List.countP_eq_length]
    intro a _
    simp [seenGet_replicate]
  rw [hcount]
  simp

/-! Row access under well-formedness, and coveredIdx basics. -/

lemma row_length (g : Graph) (hwf : g.Wf) (id : Nat) (hid : id < g.nodes.length) :
    (g.edges.getD id []).length = g.nodes.length := by
  have h1 : id < g.edges.length := by rw [hwf.1]; exact hid
  exact hwf.2 _ (getD_mem _ _ _ h1)

lemma coveredIdx_cons (m : Nat × Option Nat) (ms : List (Nat × Option Nat)) :
    Graph.coveredIdx (m :: ms) = m.1 :: (m.2.toList ++ Graph.coveredIdx ms) := by
  simp [Graph.coveredIdx]

lemma mem_coveredIdx (ms : List (Nat × Option Nat)) (k : Nat) :
    k ∈ Graph.coveredIdx ms ↔ ∃ p ∈ ms, p.1 = k ∨ p.2 = some k := by
  unfold Graph.coveredIdx
  rw [List.mem_bind]
  constructor
  · rintro ⟨p, hp, hk⟩
    rcases List.mem_cons.mp hk with h1 | h2
    · exact ⟨p, hp, Or.inl h1.symm⟩
    · exact ⟨p, hp, Or.inr (Option.mem_toList.mp h2)⟩
  · rintro ⟨p, hp, h1 | h2⟩
    · exact ⟨p, hp, List.mem_cons.mpr (Or.inl h1.symm)⟩
    · exact ⟨p, hp, List.mem_cons.mpr (Or.inr (Option.mem_toList.mpr h2))⟩

/-! The loop invariant of Graph::matching, proved down the run.  The
invariant hypothesis says: either every index below the cursor is seen
(the normal mode), or every index from the cursor on is seen (the mode
entered after the unique singleton emission). -/

lemma matchingAux_spec (g : Graph) (hwf : g.Wf) : ∀ (fuel id : Nat) (seen : List Bool),
    id + fuel = g.nodes.length →
    seen.length = g.nodes.length →
    ((∀ k, k < id → Graph.seenGet seen k = true) ∨
      (∀ k, id ≤ k → k < g.nodes.length → Graph.seenGet seen k = true)) →
    (Graph.matchingAux g fuel id seen).2 = 0 ∧
    (∀ p ∈ (Graph.matchingAux g fuel id seen).1,
      id ≤ p.1 ∧ p.1 < g.nodes.length ∧
        ∀ b, p.2 = some b → p.1 < b ∧ b < g.nodes.length) ∧
    ((Graph.matchingAux g fuel id seen).1.map Prod.fst).Pairwise (· < ·) ∧
    (∀ p ∈ (Graph.matchingAux g fuel id seen).1.dropLast, p.2 ≠ none) ∧
    (∀ k, k ∈ Graph.coveredIdx (Graph.matchingAux g fuel id seen).1 ↔
      (id ≤ k ∧ k < g.nodes.length ∧ Graph.seenGet seen k = false)) ∧
    (Graph.coveredIdx (Graph.matchingAux g fuel id seen).1).Nodup ∧
    ((Graph.matchingAux g fuel id seen).1.filter (fun m => m.2.isNone)).length =
      Graph.unseenCount seen id % 2 ∧
    ((Graph.matchingAux g fuel id seen).1.filter (fun m => m.2.isSome)).length * 2 +
      ((Graph.matchingAux g fuel id seen).1.filter (fun m => m.2.isNone)).length =
      Graph.unseenCount seen id := by
  intro fuel
  induction fuel with
  | zero =>
    intro id seen hsum hlen _
    have hu : Graph.unseenCount seen id = 0 := by
      unfold Graph.unseenCount
      apply countP_eq_zero_of_false
      intro y hy
      have h1 : y < g.nodes.length := by rw [← hlen]; exact List.mem_range.mp hy
      have hdec : decide (id ≤ y) = false := decide_eq_false (by omega)
      simp [hdec]
    have hR : Graph.matchingAux g 0 id seen = ([], 0) := rfl
    rw [hR, hu]
    refine ⟨rfl, ?_, ?_, ?_, ?_, ?_, ?_, ?_⟩
    · intro p hp; cases hp
    · simp
    · simp
    · intro k
      constructor
      · intro hk; simp [Graph.coveredIdx] at hk
      · rintro ⟨h1, h2, _⟩; omega
    · simp [Graph.coveredIdx]
    · simp
    · simp
  | succ fuel2 ih =>
    intro id seen hsum hlen hinv
    have hid : id < g.nodes.length := by omega
    by_cases hseen : Graph.seenGet seen id = true
    · -- the skip branch: id already seen
      have hR : Graph.matchingAux g (fuel2 + 1) id seen =
          Graph.matchingAux g fuel2 (id + 1) seen := by
        rw [Graph.matchingAux]
        simp [hseen]
      rw [hR]
      have hinv2 : (∀ k, k < id + 1 → Graph.seenGet seen k = true) ∨
          (∀ k, id + 1 ≤ k → k < g.nodes.length → Graph.seenGet seen k = true) := by
        rcases hinv with hA | hB
        · refine Or.inl ?_
          intro k hk
          rcases Nat.lt_or_ge k id with h | h
          · exact hA k h
          · have hkid : k = id := by omega
            rw [hkid]; exact hseen
        · exact Or.inr (fun k h1 h2 => hB k (by omega) h2)
      obtain ⟨P1, P2, P3, P4, P5, P6, P7, P8⟩ := ih (id + 1) seen (by omega) hlen hinv2
      have hu : Graph.unseenCount seen id = Graph.unseenCount seen (id + 1) :=
        unseenCount_skip seen id hseen
      refine ⟨P1, ?_, P3, P4, ?_, P6, ?_, ?_⟩
      · intro p hp
        obtain ⟨h1, h2, h3⟩ := P2 p hp
        exact ⟨by omega, h2, h3⟩
      · intro k
        rw [P5 k]
        constructor
        · rintro ⟨h1, h2, h3⟩; exact ⟨by omega, h2, h3⟩
        · rintro ⟨h1, h2, h3⟩
          have hk : k ≠ id := by
            rintro rfl
            rw [hseen] at h3; cases h3
          exact ⟨by omega, h2, h3⟩
      · rw [hu]; exact P7
      · rw [hu]; exact P8
    · -- id is unseen
      rw [Bool.not_eq_true] at hseen
      have hA : ∀ k, k < id → Graph.seenGet seen k = true := by
        rcases hinv with hA | hB
        · exact hA
        · exfalso
          rw [hB id (le_refl id) hid] at hseen
          cases hseen
      cases hmin : Graph.min_by_key (Graph.other_weights g seen id) with
      | none =>
        -- singleton: no unseen candidate remains
        have hempty : Graph.other_weights g seen id = [] := (min_by_key_none _).mp hmin
        have hall : ∀ k, k < g.nodes.length → k ≠ id → Graph.seenGet seen k = true := by
          intro k hk hkid
          by_contra hcon
          rw [Bool.not_eq_true] at hcon
          have hmem : ((k, (g.edges.getD id []).getD k 0) : Nat × Nat) ∈
              Graph.other_weights g seen id := by
            rw [mem_other_weights]
            refine ⟨?_, rfl, hcon, fun he => hkid he.symm⟩
            rw [row_length g hwf id hid]
            exact hk
          rw [hempty] at hmem
          cases hmem
        have hrest : Graph.matchingAux g fuel2 (id + 1) seen = ([], 0) := by
          apply matchingAux_allSeen
          intro k h1 h2
          exact hall k (by omega) (by omega)
        have hR : Graph.matchingAux g (fuel2 + 1) id seen = ([(id, none)], 0) := by
          rw [Graph.matchingAux]
          simp [hseen, hmin, hrest]
        rw [hR]
        have hu1 : Graph.unseenCount seen id = 1 := by
          apply unseenCount_single seen id (by rw [hlen]; exact hid) hseen
          intro k hk hkid
          exact hall k (by rw [← hlen]; exact hk) hkid
        rw [hu1]
        refine ⟨rfl, ?_, ?_, ?_, ?_, ?_, ?_, ?_⟩
        · intro p hp
          have hp2 : p = (id, none) := by simpa using hp
          subst hp2
          exact ⟨le_refl id, hid, fun b hb => by cases hb⟩
        · simp
        · simp
        · intro k
          constructor
          · intro hk
            have hkid : k = id := by simpa [Graph.coveredIdx] using hk
            subst hkid
            exact ⟨le_refl k, hid, hseen⟩
          · rintro ⟨h1, h2, h3⟩
            have hkid : k = id := by
              by_contra hc
              rw [hall k h2 hc] at h3
              cases h3
            subst hkid
            simp [Graph.coveredIdx]
        · simp [Graph.coveredIdx]
        · simp
        · simp
      | some other =>
        obtain ⟨homem, _⟩ :=
          min_by_key_spec _ (other_weights_pairwise g seen id) other hmin
        rw [mem_other_weights] at homem
        obtain ⟨holt0, hoval, hounseen, honeid⟩ := homem
        have holt : other.1 < g.nodes.length := by
          rw [row_length g hwf id hid] at holt0
          exact holt0
        have hgt : id < other.1 := by
          rcases Nat.lt_trichotomy id other.1 with h | h | h
          · exact h
          · exact absurd h honeid
          · exfalso
            rw [hA other.1 h] at hounseen
            cases hounseen
        have hlen2 : ((seen.set id true).set other.1 true).length = g.nodes.length := by
          simp [hlen]
        have hs2id : Graph.seenGet ((seen.set id true).set other.1 true) id = true := by
          rw [seenGet_set_ne (seen.set id true) other.1 id true (Ne.symm honeid)]
          exact seenGet_set_self seen id true (by rw [hlen]; exact hid)
        have hs2o : Graph.seenGet ((seen.set id true).set other.1 true) other.1 = true :=
          seenGet_set_self _ _ _ (by simpa [hlen] using holt)
        have hs2k : ∀ k, k ≠ id → k ≠ other.1 →
            Graph.seenGet ((seen.set id true).set other.1 true) k = Graph.seenGet seen k := by
          intro k h1 h2
          rw [seenGet_set_ne (seen.set id true) other.1 k true (fun he => h2 he.symm),
            seenGet_set_ne seen id k true (fun he => h1 he.symm)]
        have hinv2 : (∀ k, k < id + 1 →
              Graph.seenGet ((seen.set id true).set other.1 true) k = true) ∨
            (∀ k, id + 1 ≤ k → k < g.nodes.length →
              Graph.seenGet ((seen.set id true).set other.1 true) k = true) := by
          refine Or.inl ?_
          intro k hk
          rcases Nat.lt_or_ge k id with h | h
          · rw [hs2k k (by omega) (by omega)]
            exact hA k h
          · have hkid : k = id := by omega
            rw [hkid]
            exact hs2id
        obtain ⟨P1, P2, P3, P4, P5, P6, P7, P8⟩ :=
          ih (id + 1) ((seen.set id true).set other.1 true) (by omega) hlen2 hinv2
        have hR : Graph.matchingAux g (fuel2 + 1) id seen =
            ((id, some other.1) ::
              (Graph.matchingAux g fuel2 (id + 1) ((seen.set id true).set other.1 true)).1,
             (Graph.matchingAux g fuel2 (id + 1) ((seen.set id true).set other.1 true)).2) := by
          rw [Graph.matchingAux]
          simp [hseen, hmin, hgt]
        rw [hR]
        have hcov : Graph.coveredIdx ((id, some other.1) ::
            (Graph.matchingAux g fuel2 (id + 1) ((seen.set id true).set other.1 true)).1) =
            id :: other.1 :: Graph.coveredIdx
              (Graph.matchingAux g fuel2 (id + 1) ((seen.set id true).set other.1 true)).1 := by
          rw [coveredIdx_cons]
          simp
        have hu1 : Graph.unseenCount seen id = Graph.unseenCount seen (id + 1) + 1 :=
          unseenCount_unseen_cons seen id (by rw [hlen]; exact hid) hseen
        have hu2 : Graph.unseenCount seen (id + 1) =
            Graph.unseenCount ((seen.set id true).set other.1 true) (id + 1) + 1 :=
          unseenCount_set2 seen id other.1 hgt (by rw [hlen]; exact holt) hounseen
        refine ⟨P1, ?_, ?_, ?_, ?_, ?_, ?_, ?_⟩
        · intro p hp
          rcases List.mem_cons.mp hp with hp1 | hp2
          · subst hp1
            refine ⟨le_refl id, hid, ?_⟩
            intro b hb
            have hb2 : other.1 = b := by simpa using hb
            subst hb2
            exact ⟨hgt, holt⟩
          · obtain ⟨h1, h2, h3⟩ := P2 p hp2
            exact ⟨by omega, h2, h3⟩
        · rw [List.map_cons, List.pairwise_cons]
          refine ⟨?_, P3⟩
          intro y hy
          obtain ⟨q, hq, hqy⟩ := List.mem_map.mp hy
          have h1 := (P2 q hq).1
          subst hqy
          simp only
          omega
        · cases hcase :
            (Graph.matchingAux g fuel2 (id + 1) ((seen.set id true).set other.1 true)).1 with
          | nil => simp
          | cons r t =>
            rw [List.dropLast_cons₂]
            intro p hp
            rcases List.mem_cons.mp hp with hp1 | hp2
            · subst hp1; simp
            · rw [hcase] at P4
              exact P4 p hp2
        · intro k
          rw [hcov]
          simp only [List.mem_cons]
          constructor
          · rintro (rfl | rfl | hk)
            · exact ⟨le_refl _, hid, hseen⟩
            · exact ⟨by omega, holt, hounseen⟩
            · obtain ⟨h1, h2, h3⟩ := (P5 k).mp hk
              have hk1 : k ≠ id := by omega
              have hk2 : k ≠ other.1 := by
                rintro rfl
                rw [hs2o] at h3
                cases h3
              rw [hs2k k hk1 hk2] at h3
              exact ⟨by omega, h2, h3⟩
          · rintro ⟨h1, h2, h3⟩
            by_cases hk1 : k = id
            · exact Or.inl hk1
            by_cases hk2 : k = other.1
            · exact Or.inr (Or.inl hk2)
            · refine Or.inr (Or.inr ?_)
              apply (P5 k).mpr
              refine ⟨by omega, h2, ?_⟩
              rw [hs2k k hk1 hk2]
              exact h3
        · rw [hcov]
          refine List.nodup_cons.mpr ⟨?_, List.nodup_cons.mpr ⟨?_, P6⟩⟩
          · intro hmem
            rcases List.mem_cons.mp hmem with h1 | h2
            · exact honeid h1
            · have := ((P5 id).mp h2).1
              omega
          · intro hmem
            have h3 := ((P5 other.1).mp hmem).2.2
            rw [hs2o] at h3
            cases h3
        · rw [List.filter_cons_of_neg (by simp), P7, hu1, hu2]
          omega
        · rw [List.filter_cons_of_pos (by simp),
            List.filter_cons_of_neg (by simp), List.length_cons, hu1, hu2]
          omega

/-! Diagonal noninterference: the filtered candidate lists, and hence the
whole run, only read off-diagonal entries. -/

lemma filter2_enumFrom_congr (seen : List Bool) (id : Nat) :
    ∀ (r1 r2 : List Nat) (k0 : Nat),
      r1.length = r2.length →
      (∀ t, t < r1.length → k0 + t ≠ id → r1.getD t 0 = r2.getD t 0) →
      (r1.enumFrom k0).filter (fun e => (id != e.1) && ! Graph.seenGet seen e.1) =
        (r2.enumFrom k0).filter (fun e => (id != e.1) && ! Graph.seenGet seen e.1) := by
  intro r1
  induction r1 with
  | nil =>
    intro r2 k0 hlen _
    have h2 : r2 = [] := by
      cases r2
      · rfl
      · simp at hlen
    rw [h2]
  | cons a t ihr =>
    intro r2 k0 hlen hag
    cases r2 with
    | nil => simp at hlen
    | cons b t2 =>
      have hlen2 : t.length = t2.length := by simpa using hlen
      have htail := ihr t2 (k0 + 1) hlen2 (fun u hu hne => by
        have h := hag (u + 1) (by simpa using Nat.succ_lt_succ hu) (by omega)
        simpa using h)
      rw [List.enumFrom_cons, List.enumFrom_cons]
      by_cases hidk : id = k0
      · rw [List.filter_cons_of_neg (by simp [hidk]),
          List.filter_cons_of_neg (by simp [hidk])]
        exact htail
      by_cases hsk : Graph.seenGet seen k0 = true
      · rw [List.filter_cons_of_neg (by simp [hsk]),
          List.filter_cons_of_neg (by simp [hsk])]
        exact htail
      · rw [Bool.not_eq_true] at hsk
        have hab : a = b := by
          have h := hag 0 (by simp) (by omega)
          simpa using h
        subst hab
        have hc : (id != k0 && ! Graph.seenGet seen k0) = true := by
          simp [hsk, bne_iff_ne.mpr hidk]
        simp only [List.filter_cons, hc, if_true]
        rw [htail]

lemma other_weights_congr (g1 g2 : Graph) (h1 : g1.Wf) (h2 : g2.Wf)
    (hn : g1.nodes.length = g2.nodes.length)
    (hoff : ∀ i j, i < g1.nodes.length → j < g1.nodes.length → i ≠ j →
      g1.edge i j = g2.edge i j)
    (seen : List Bool) (id : Nat) (hid : id < g1.nodes.length) :
    Graph.other_weights g1 seen id = Graph.other_weights g2 seen id := by
  unfold Graph.other_weights Graph.edges_for
  have hr1 : (g1.edges.getD id []).length = g1.nodes.length := row_length g1 h1 id hid
  have hr2 : (g2.edges.getD id []).length = g2.nodes.length :=
    row_length g2 h2 id (by omega)
  rw [List.filter_filter, List.filter_filter]
  apply filter2_enumFrom_congr seen id _ _ 0 (by omega)
  intro t ht hne
  have htn : t < g1.nodes.length := by omega
  have hid_t : id ≠ t := by omega
  exact hoff id t hid htn hid_t

lemma matchingAux_congr (g1 g2 : Graph) (h1 : g1.Wf) (h2 : g2.Wf)
    (hn : g1.nodes.length = g2.nodes.length)
    (hoff : ∀ i j, i < g1.nodes.length → j < g1.nodes.length → i ≠ j →
      g1.edge i j = g2.edge i j) :
    ∀ (fuel id : Nat) (seen : List Bool), id + fuel = g1.nodes.length →
      Graph.matchingAux g1 fuel id seen = Graph.matchingAux g2 fuel id seen := by
  intro fuel
  induction fuel with
  | zero => intro id seen _; rfl
  | succ fuel2 ih =>
    intro id seen hsum
    rw [Graph.matchingAux, Graph.matchingAux]
    by_cases hs : Graph.seenGet seen id = true
    · simp only [hs, if_true]
      exact ih (id + 1) seen (by omega)
    · rw [Bool.not_eq_true] at hs
      simp only [hs, Bool.false_eq_true, if_false]
      rw [other_weights_congr g1 g2 h1 h2 hn hoff seen id (by omega)]
      cases hmin : Graph.min_by_key (Graph.other_weights g2 seen id) with
      | none =>
        simp only
        rw [ih (id + 1) seen (by omega)]
      | some other =>
        simp only
        rw [ih (id + 1) ((seen.set id true).set other.1 true) (by omega)]

/-- C1: for every well-formed Graph, matching() partitions the index set
0..n: the covered indices are exactly 0..n with no repeats, there is one
singleton entry iff n is odd and none iff n is even, and the pairs cover
exactly 2 * floor(n/2) distinct indices (n/2 pairs of distinct members). -/
theorem claim_C1_matching_full_partition (g : Graph) (hwf : g.Wf) :
    (Graph.coveredIdx g.matching).Nodup ∧
    (∀ k, k ∈ Graph.coveredIdx g.matching ↔ k < g.nodes.length) ∧
    (g.matching.filter (fun m => m.2.isNone)).length = g.nodes.length % 2 ∧
    (g.matching.filter (fun m => m.2.isSome)).length = g.nodes.length / 2 := by
  obtain ⟨P1, P2, P3, P4, P5, P6, P7, P8⟩ :=
    matchingAux_spec g hwf g.nodes.length 0 (List.replicate g.nodes.length false)
      (by omega) (by simp) (Or.inl (fun k hk => absurd hk (by omega)))
  have hu := unseenCount_replicate g.nodes.length
  unfold Graph.matching
  refine ⟨P6, ?_, ?_, ?_⟩
  · intro k
    rw [P5 k]
    simp [seenGet_replicate]
  · rw [P7, hu]
  · rw [hu] at P7 P8
    omega

/-- C1 witness: the partition properties evaluated on a concrete
three-node graph. -/
theorem claim_C1_witness :
    (Graph.coveredIdx oddGraph.matching).Nodup ∧
    (∀ k, k ∈ Graph.coveredIdx oddGraph.matching ↔ k < oddGraph.nodes.length) ∧
    (oddGraph.matching.filter (fun m => m.2.isNone)).length =
      oddGraph.nodes.length % 2 ∧
    (oddGraph.matching.filter (fun m => m.2.isSome)).length =
      oddGraph.nodes.length / 2 :=
  claim_C1_matching_full_partition oddGraph (by decide)

/-- C2: on the spec's four-node graph the result is exactly the pairs
(0,2) and (1,3); and in general the candidate selected by min_by_key from
an other_weights list is weight-minimal and, among equal weights, has the
smallest index. -/
theorem claim_C2_tie_break :
    (tieGraph.map Graph.matching = some [(0, some 2), (1, some 3)]) ∧
    (∀ (g : Graph) (seen : List Bool) (id : Nat) (e : Nat × Nat),
      Graph.min_by_key (Graph.other_weights g seen id) = some e →
      ∀ e2 ∈ Graph.other_weights g seen id,
        e.2 ≤ e2.2 ∧ (e2.2 = e.2 → e.1 ≤ e2.1)) := by
  refine ⟨by decide, ?_⟩
  intro g seen id e he e2 he2
  exact (min_by_key_spec _ (other_weights_pairwise g seen id) e he).2 e2 he2

/-- C2 witness: a concrete tie (weights 4 and 4 at indices 1 and 2):
min_by_key picks index 1, which is weight-minimal and smallest. -/
theorem claim_C2_witness :
    (4 : Nat) ≤ 4 ∧ ((4 : Nat) = 4 → (1 : Nat) ≤ 2) :=
  claim_C2_tie_break.2 tieWitnessGraph [false, false, false] 0 (1, 4)
    (by decide) (2, 4) (by decide)

/-- C3 counterexample: add_edge with i = j = 0 on a one-node graph does
not panic; it returns a graph (so a self-index call is not treated as
fatal, refuting the claim that violating i != j panics). -/
theorem claim_C3_counterexample :
    (oneNodeGraph.add_edge 0 0 5).isSome = true ∧
    oneNodeGraph.nodes.length = 1 ∧
    oneNodeGraph.add_edge 0 0 5 = some ⟨[7], [[5]]⟩ := by
  decide

/-- C3 amended: add_edge panics exactly when an index is out of range;
the bounds part of the precondition is enforced (never silently ignored),
but i = j is not checked — an in-range self-index call succeeds. -/
theorem claim_C3_add_edge_amended (g : Graph) (i j w : Nat) :
    (g.add_edge i j w).isSome = true ↔
      (i < g.nodes.length ∧ j < g.nodes.length) := by
  unfold Graph.add_edge
  by_cases h1 : i < g.nodes.length
  · by_cases h2 : j < g.nodes.length
    · simp [h1, h2]
    · simp [h1, h2]
  · simp [h1]

/-- C4 counterexample: on a two-node graph, edges_for(0) yields an
element for node 0 itself, namely (0, w(0,0)) — refuting the claim that
no element is produced for i itself. -/
theorem claim_C4_counterexample :
    twoNodeGraph.edges_for 0 = [(0, 0), (1, 3)] ∧
    ((twoNodeGraph.edges_for 0).filter (fun e => e.1 == 0)).length = 1 := by
  decide

/-- C4 amended: for a well-formed graph and i < node_count, edges_for(i)
yields exactly one element (j, weight(i,j)) for every node j including i
itself, in ascending order of j, with weight-0 entries included. -/
theorem claim_C4_edges_for_amended (g : Graph) (id : Nat) (hwf : g.Wf)
    (hid : id < g.nodes.length) :
    (g.edges_for id).map Prod.fst = List.range g.nodes.length ∧
    (∀ j, j < g.nodes.length → (j, g.edge id j) ∈ g.edges_for id) := by
  constructor
  · unfold Graph.edges_for
    rw [List.enum_map_fst, row_length g hwf id hid]
  · intro j hj
    apply (mem_enum_getD _ _).mpr
    refine ⟨?_, rfl⟩
    rw [row_length g hwf id hid]
    exact hj

/-- C4 witness: the amended enumeration property on a concrete graph. -/
theorem claim_C4_witness :
    (oddGraph.edges_for 1).map Prod.fst = List.range oddGraph.nodes.length ∧
    (∀ j, j < oddGraph.nodes.length → (j, oddGraph.edge 1 j) ∈ oddGraph.edges_for 1) :=
  claim_C4_edges_for_amended oddGraph 1 (by decide) (by decide)

/-- C9: consequences of the loop invariant of matching() on well-formed
graphs — whenever the pass reaches an unseen index every smaller index is
seen, so: the swapped-pair branch is never executed (count 0), every pair
(a, some b) has a < b, first components are strictly increasing, and any
singleton is the last entry. -/
theorem claim_C9_loop_invariant (g : Graph) (hwf : g.Wf) :
    g.matchingSwapCount = 0 ∧
    (∀ p ∈ g.matching, ∀ b, p.2 = some b → p.1 < b) ∧
    (g.matching.map Prod.fst).Pairwise (· < ·) ∧
    (∀ p ∈ g.matching.dropLast, p.2 ≠ none) := by
  obtain ⟨P1, P2, P3, P4, _, _, _, _⟩ :=
    matchingAux_spec g hwf g.nodes.length 0 (List.replicate g.nodes.length false)
      (by omega) (by simp) (Or.inl (fun k hk => absurd hk (by omega)))
  unfold Graph.matching Graph.matchingSwapCount
  exact ⟨P1, fun p hp b hb => ((P2 p hp).2.2 b hb).1, P3, P4⟩

/-- C9 witness: the loop-invariant consequences on a concrete graph. -/
theorem claim_C9_witness :
    diagGraphA.matchingSwapCount = 0 ∧
    (∀ p ∈ diagGraphA.matching, ∀ b, p.2 = some b → p.1 < b) ∧
    (diagGraphA.matching.map Prod.fst).Pairwise (· < ·) ∧
    (∀ p ∈ diagGraphA.matching.dropLast, p.2 ≠ none) :=
  claim_C9_loop_invariant diagGraphA (by decide)

/-- C10: two well-formed graphs with the same node count agreeing on all
off-diagonal weights produce identical matching() output — self-weights
never influence the result. -/
theorem claim_C10_diagonal_noninterference (g1 g2 : Graph)
    (h1 : g1.Wf) (h2 : g2.Wf)
    (hn : g1.nodes.length = g2.nodes.length)
    (hoff : ∀ i, i < g1.nodes.length → ∀ j, j < g1.nodes.length → i ≠ j →
      g1.edge i j = g2.edge i j) :
    g1.matching = g2.matching := by
  have hc := matchingAux_congr g1 g2 h1 h2 hn
    (fun i j hi hj hij => hoff i hi j hj hij)
    g1.nodes.length 0 (List.replicate g1.nodes.length false) (by omega)
  unfold Graph.matching
  rw [hc, hn]

/-- C10 witness: two concrete graphs differing only on the diagonal have
the same matching. -/
theorem claim_C10_witness : diagGraphA.matching = diagGraphB.matching :=
  claim_C10_diagonal_noninterference diagGraphA diagGraphB
    (by decide) (by decide) (by decide) (by decide)

/-! Invariant preservation for the Graph mutations (C7). -/

lemma getD2_set (e : List (List Nat)) (k : Nat) (r : List Nat) (hk : k < e.length)
    (x y : Nat) :
    ((e.set k r).getD x []).getD y 0 =
      if x = k then r.getD y 0 else (e.getD x []).getD y 0 := by
  by_cases hx : x = k
  · subst hx
    rw [getD_set_self e x r [] hk, if_pos rfl]
  · rw [getD_set_ne e k x r [] (fun he => hx he.symm), if_neg hx]

lemma getD_row_set (row : List Nat) (k v : Nat) (hk : k < row.length) (y : Nat) :
    (row.set k v).getD y 0 = if y = k then v else row.getD y 0 := by
  by_cases hy : y = k
  · subst hy
    rw [getD_set_self row y v 0 hk, if_pos rfl]
  · rw [getD_set_ne row k y v 0 (fun he => hy he.symm), if_neg hy]

lemma wf_rows_set (e : List (List Nat)) (n k : Nat) (r : List Nat)
    (he : ∀ row ∈ e, row.length = n) (hr : r.length = n) :
    ∀ row ∈ e.set k r, row.length = n := by
  intro row hrow
  rcases List.mem_or_eq_of_mem_set hrow with h | h
  · exact he row h
  · rw [h]
    exact hr

lemma wf_add_node (g : Graph) (hwf : g.Wf) (p : Nat) :
    (g.add_node p).2.Wf ∧ (g.add_node p).2.nodes.length = g.nodes.length + 1 := by
  unfold Graph.add_node
  refine ⟨⟨?_, ?_⟩, by simp⟩
  · simp [hwf.1]
  · intro row hrow
    simp only [List.mem_append, List.mem_map, List.mem_singleton] at hrow
    rcases hrow with ⟨r, hr, hrr⟩ | hrow
    · rw [← hrr]
      simp [hwf.2 r hr]
    · rw [hrow]
      simp

lemma edge_add_node (g : Graph) (hwf : g.Wf) (p i j : Nat)
    (hi : i < g.nodes.length + 1) (hj : j < g.nodes.length + 1) :
    (g.add_node p).2.edge i j =
      if i < g.nodes.length ∧ j < g.nodes.length then g.edge i j else 0 := by
  unfold Graph.add_node Graph.edge
  simp only
  by_cases h1 : i < g.nodes.length
  · have hrow : ((g.edges.map (fun row => row ++ [0])) ++
        [List.replicate (g.nodes.length + 1) 0]).getD i [] =
        (g.edges.getD i []) ++ [0] := by
      rw [List.getD_append _ _ _ _ (by simp [hwf.1]; exact h1)]
      exact getD_map _ _ _ _ [] (by rw [hwf.1]; exact h1)
    rw [hrow]
    by_cases h2 : j < g.nodes.length
    · rw [List.getD_append _ _ _ _ (by rw [row_length g hwf i h1]; exact h2)]
      simp [h1, h2]
    · have hjn : j = g.nodes.length := by omega
      rw [List.getD_append_right _ _ _ _ (by rw [row_length g hwf i h1]; omega)]
      rw [row_length g hwf i h1, hjn]
      simp [h1, h2]
  · have hin : i = g.nodes.length := by omega
    have hrow : ((g.edges.map (fun row => row ++ [0])) ++
        [List.replicate (g.nodes.length + 1) 0]).getD i [] =
        List.replicate (g.nodes.length + 1) 0 := by
      rw [List.getD_append_right _ _ _ _ (by simp [hwf.1]; omega)]
      simp [hin, hwf.1]
    rw [hrow]
    have hz : ∀ k, (List.replicate (g.nodes.length + 1) (0 : Nat)).getD k 0 = 0 := by
      intro k
      rcases Nat.lt_or_ge k (g.nodes.length + 1) with h | h
      · rw [List.getD_eq_getElem _ _ (by simpa using h)]
        simp
      · rw [List.getD_eq_default _ _ (by simpa using h)]
    rw [hz j]
    simp [h1]

lemma symm_add_node (g : Graph) (hwf : g.Wf) (hsym : g.Symm) (p : Nat) :
    (g.add_node p).2.Symm := by
  intro i hi j hj
  have hn : (g.add_node p).2.nodes.length = g.nodes.length + 1 :=
    (wf_add_node g hwf p).2
  rw [hn] at hi hj
  rw [edge_add_node g hwf p i j hi hj, edge_add_node g hwf p j i hj hi]
  by_cases h1 : i < g.nodes.length ∧ j < g.nodes.length
  · rw [if_pos h1, if_pos (And.intro h1.2 h1.1)]
    exact hsym i h1.1 j h1.2
  · rw [if_neg h1, if_neg (fun hc => h1 (And.intro hc.2 hc.1))]

lemma add_edge_some (g : Graph) (i j w : Nat) (g2 : Graph)
    (h : g.add_edge i j w = some g2) :
    i < g.nodes.length ∧ j < g.nodes.length ∧ g2.nodes = g.nodes ∧
    g2.edges = (g.edges.set i ((g.edges.getD i []).set j w)).set j
      (((g.edges.set i ((g.edges.getD i []).set j w)).getD j []).set i w) := by
  unfold Graph.add_edge at h
  by_cases h1 : i < g.nodes.length
  · by_cases h2 : j < g.nodes.length
    · simp only [h1, h2, if_true, Option.some_inj] at h
      refine ⟨h1, h2, ?_, ?_⟩
      · rw [← h]
      · rw [← h]
    · simp [h1, h2] at h
  · simp [h1] at h

lemma edge_add_edge (g : Graph) (hwf : g.Wf) (i j w : Nat) (g2 : Graph)
    (h : g.add_edge i j w = some g2) (a b : Nat) :
    g2.edge a b =
      if (a = i ∧ b = j) ∨ (a = j ∧ b = i) then w else g.edge a b := by
  obtain ⟨hi, hj, _, he⟩ := add_edge_some g i j w g2 h
  have hilen : i < g.edges.length := by rw [hwf.1]; exact hi
  have hjlen : j < (g.edges.set i ((g.edges.getD i []).set j w)).length := by
    rw [List.length_set, hwf.1]
    exact hj
  have hrowi : (g.edges.getD i []).length = g.nodes.length := row_length g hwf i hi
  have hrowj : (g.edges.getD j []).length = g.nodes.length := row_length g hwf j hj
  have hmid : ((g.edges.set i ((g.edges.getD i []).set j w)).getD j []).length =
      g.nodes.length := by
    by_cases hji : j = i
    · subst hji
      rw [getD_set_self _ _ _ _ hilen, List.length_set]
      exact hrowj
    · rw [getD_set_ne _ _ _ _ _ (fun hc => hji hc.symm)]
      exact hrowj
  unfold Graph.edge
  rw [he]
  rw [getD2_set _ _ _ hjlen]
  by_cases haj : a = j
  · subst haj
    rw [if_pos rfl, getD_row_set _ _ _ (by rw [hmid]; exact hi)]
    by_cases hbi : b = i
    · subst hbi
      rw [if_pos rfl, if_pos (Or.inr ⟨rfl, rfl⟩)]
    · rw [if_neg hbi, getD2_set _ _ _ hilen]
      by_cases hji : a = i
      · subst hji
        rw [if_pos rfl, getD_row_set _ _ _ (by rw [hrowi]; exact hj)]
        have hbj : ¬ b = a := fun hc => hbi hc
        rw [if_neg hbj]
        rw [if_neg ?hc]
        case hc =>
          rintro (⟨_, rfl⟩ | ⟨_, rfl⟩)
          · exact hbj rfl
          · exact hbi rfl
      · rw [if_neg hji]
        rw [if_neg ?hc2]
        case hc2 =>
          rintro (⟨rfl, rfl⟩ | ⟨_, rfl⟩)
          · exact hji rfl
          · exact hbi rfl
  · rw [if_neg haj, getD2_set _ _ _ hilen]
    by_cases hai : a = i
    · subst hai
      rw [if_pos rfl, getD_row_set _ _ _ (by rw [hrowi]; exact hj)]
      by_cases hbj : b = j
      · subst hbj
        rw [if_pos rfl, if_pos (Or.inl ⟨rfl, rfl⟩)]
      · rw [if_neg hbj]
        rw [if_neg ?hc3]
        case hc3 =>
          rintro (⟨_, rfl⟩ | ⟨rfl, _⟩)
          · exact hbj rfl
          · exact haj rfl
    · rw [if_neg hai]
      rw [if_neg ?hc4]
      case hc4 =>
        rintro (⟨rfl, _⟩ | ⟨rfl, _⟩)
        · exact hai rfl
        · exact haj rfl

lemma wf_add_edge (g : Graph) (hwf : g.Wf) (i j w : Nat) (g2 : Graph)
    (h : g.add_edge i j w = some g2) :
    g2.Wf ∧ g2.nodes = g.nodes := by
  obtain ⟨hi, hj, hnodes, he⟩ := add_edge_some g i j w g2 h
  have hilen : i < g.edges.length := by rw [hwf.1]; exact hi
  have hrowi : (g.edges.getD i []).length = g.nodes.length := row_length g hwf i hi
  have hrows1 : ∀ row ∈ g.edges.set i ((g.edges.getD i []).set j w),
      row.length = g.nodes.length :=
    wf_rows_set _ _ _ _ hwf.2 (by rw [List.length_set]; exact hrowi)
  have hmid : ((g.edges.set i ((g.edges.getD i []).set j w)).getD j []).length =
      g.nodes.length := by
    apply hrows1
    apply getD_mem
    rw [List.length_set, hwf.1]
    exact hj
  refine ⟨⟨?_, ?_⟩, hnodes⟩
  · rw [he, hnodes]
    simp [hwf.1]
  · rw [he, hnodes]
    exact wf_rows_set _ _ _ _ hrows1 (by rw [List.length_set]; exact hmid)

lemma symm_add_edge (g : Graph) (hwf : g.Wf) (hsym : g.Symm) (i j w : Nat)
    (g2 : Graph) (h : g.add_edge i j w = some g2) : g2.Symm := by
  intro a ha b hb
  have hnodes : g2.nodes = g.nodes := (add_edge_some g i j w g2 h).2.2.1
  rw [hnodes] at ha hb
  rw [edge_add_edge g hwf i j w g2 h a b, edge_add_edge g hwf i j w g2 h b a]
  by_cases hc : (a = i ∧ b = j) ∨ (a = j ∧ b = i)
  · rw [if_pos hc, if_pos (by tauto)]
  · rw [if_neg hc, if_neg (by tauto)]
    exact hsym a ha b hb

lemma bump_entry_char (e : List (List Nat)) (n : Nat) (hlen : e.length = n)
    (hrows : ∀ row ∈ e, row.length = n) (a b : Nat) (e2 : List (List Nat))
    (h : Graph.bump_entry e a b = some e2) :
    e2.length = n ∧ (∀ row ∈ e2, row.length = n) ∧
    (∀ x y, (e2.getD x []).getD y 0 =
      (e.getD x []).getD y 0 + (if x = a ∧ y = b then 1 else 0)) := by
  unfold Graph.bump_entry at h
  cases hga : e.get? a with
  | none => rw [hga] at h; cases h
  | some row =>
    rw [hga] at h
    have h2 : (match row.get? b with
        | none => none
        | some w => some (e.set a (row.set b (w + 1)))) = some e2 := h
    cases hgb : row.get? b with
    | none => rw [hgb] at h2; cases h2
    | some w0 =>
      rw [hgb] at h2
      have he2 : e2 = e.set a (row.set b (w0 + 1)) := (Option.some.inj h2).symm
      have halen : a < e.length := by
        by_contra hc
        rw [List.get?_eq_none.mpr (by omega)] at hga
        cases hga
      have hblen : b < row.length := by
        by_contra hc
        rw [List.get?_eq_none.mpr (by omega)] at hgb
        cases hgb
      have hrow : e.getD a [] = row := by
        rw [List.getD_eq_getD_get?, hga]
        rfl
      have hw0 : row.getD b 0 = w0 := by
        rw [List.getD_eq_getD_get?, hgb]
        rfl
      have hrowmem : row ∈ e := by
        rw [← hrow]
        exact getD_mem e a [] halen
      subst he2
      refine ⟨by simp [hlen], ?_, ?_⟩
      · exact wf_rows_set e n a (row.set b (w0 + 1)) hrows
          (by rw [List.length_set]; exact hrows row hrowmem)
      · intro x y
        rw [getD2_set e a (row.set b (w0 + 1)) halen x y]
        by_cases hx : x = a
        · subst hx
          rw [if_pos rfl, hrow, getD_row_set row b (w0 + 1) hblen y]
          by_cases hy : y = b
          · subst hy
            rw [if_pos rfl, if_pos ⟨rfl, rfl⟩, hw0]
          · rw [if_neg hy, if_neg (fun hc => hy hc.2)]
            rfl
        · rw [if_neg hx, if_neg (fun hc => hx hc.1)]
          rfl

lemma update_one (g : Graph) (hwf : g.Wf) (hsym : g.Symm) (ab : Nat × Nat)
    (gc : Graph)
    (h : (do
        let e1 ← Graph.bump_entry g.edges ab.1 ab.2
        let e2 ← Graph.bump_entry e1 ab.2 ab.1
        some { g with edges := e2 } : Option Graph) = some gc) :
    gc.Wf ∧ gc.Symm ∧ gc.nodes = g.nodes := by
  cases hb1 : Graph.bump_entry g.edges ab.1 ab.2 with
  | none => rw [hb1] at h; cases h
  | some e1 =>
    rw [hb1] at h
    cases hb2 : Graph.bump_entry e1 ab.2 ab.1 with
    | none =>
      rw [show (do
          let e1 ← (some e1 : Option (List (List Nat)))
          let e2 ← Graph.bump_entry e1 ab.2 ab.1
          some { g with edges := e2 } : Option Graph) =
        (do
          let e2 ← Graph.bump_entry e1 ab.2 ab.1
          some { g with edges := e2 } : Option Graph) from rfl, hb2] at h
      cases h
    | some e2 =>
      rw [show (do
          let e1 ← (some e1 : Option (List (List Nat)))
          let e2 ← Graph.bump_entry e1 ab.2 ab.1
          some { g with edges := e2 } : Option Graph) =
        (do
          let e2 ← Graph.bump_entry e1 ab.2 ab.1
          some { g with edges := e2 } : Option Graph) from rfl, hb2] at h
      have hgc : gc = { g with edges := e2 } := (Option.some.inj h).symm
      obtain ⟨hl1, hr1, hc1⟩ :=
        bump_entry_char g.edges g.nodes.length hwf.1 hwf.2 ab.1 ab.2 e1 hb1
      obtain ⟨hl2, hr2, hc2⟩ :=
        bump_entry_char e1 g.nodes.length hl1 hr1 ab.2 ab.1 e2 hb2
      subst hgc
      refine ⟨⟨hl2, hr2⟩, ?_, rfl⟩
      intro x hx y hy
      show (e2.getD x []).getD y 0 = (e2.getD y []).getD x 0
      rw [hc2 x y, hc1 x y, hc2 y x, hc1 y x]
      have hxy : Graph.edge g x y = Graph.edge g y x := hsym x hx y hy
      unfold Graph.edge at hxy
      rw [hxy]
      have hI1 : (if x = ab.1 ∧ y = ab.2 then (1 : Nat) else 0) =
          (if y = ab.2 ∧ x = ab.1 then (1 : Nat) else 0) := by
        by_cases hc : x = ab.1 ∧ y = ab.2
        · rw [if_pos hc, if_pos ⟨hc.2, hc.1⟩]
        · rw [if_neg hc, if_neg (fun hd => hc ⟨hd.2, hd.1⟩)]
      have hI2 : (if x = ab.2 ∧ y = ab.1 then (1 : Nat) else 0) =
          (if y = ab.1 ∧ x = ab.2 then (1 : Nat) else 0) := by
        by_cases hc : x = ab.2 ∧ y = ab.1
        · rw [if_pos hc, if_pos ⟨hc.2, hc.1⟩]
        · rw [if_neg hc, if_neg (fun hd => hc ⟨hd.2, hd.1⟩)]
      rw [hI1, hI2]
      omega

lemma update_from_matching_preserves (m : List (Nat × Nat)) :
    ∀ (g : Graph), g.Wf → g.Symm → ∀ (g2 : Graph),
      g.update_from_matching m = some g2 →
      g2.Wf ∧ g2.Symm ∧ g2.nodes = g.nodes := by
  induction m with
  | nil =>
    intro g hwf hsym g2 h
    have hg : g = g2 := by
      unfold Graph.update_from_matching at h
      exact Option.some.inj h
    rw [← hg]
    exact ⟨hwf, hsym, rfl⟩
  | cons ab t ih =>
    intro g hwf hsym g2 h
    unfold Graph.update_from_matching at h
    rw [List.foldlM_cons] at h
    obtain ⟨gc, hgc, hrec⟩ := Option.bind_eq_some.mp h
    obtain ⟨hwfc, hsymc, hnodesc⟩ := update_one g hwf hsym ab gc hgc
    obtain ⟨hwf2, hsym2, hnodes2⟩ := ih gc hwfc hsymc g2 hrec
    exact ⟨hwf2, hsym2, by rw [hnodes2, hnodesc]⟩

/-- C7: every Graph mutation — add_node, a successful add_edge, a
successful update_from_matching — preserves the symmetric-weight
invariant and the square-dimensions invariant (Wf). -/
theorem claim_C7_invariants (g : Graph) (p : Nat) (hwf : g.Wf) (hsym : g.Symm) :
    ((g.add_node p).2.Wf ∧ (g.add_node p).2.Symm) ∧
    (∀ i j w g2, g.add_edge i j w = some g2 → g2.Wf ∧ g2.Symm) ∧
    (∀ m g2, g.update_from_matching m = some g2 → g2.Wf ∧ g2.Symm) :=
  ⟨⟨(wf_add_node g hwf p).1, symm_add_node g hwf hsym p⟩,
   fun i j w g2 h =>
     ⟨(wf_add_edge g hwf i j w g2 h).1, symm_add_edge g hwf hsym i j w g2 h⟩,
   fun m g2 h =>
     ⟨(update_from_matching_preserves m g hwf hsym g2 h).1,
      (update_from_matching_preserves m g hwf hsym g2 h).2.1⟩⟩

/-- C7 witness: invariant preservation on a concrete two-node graph. -/
theorem claim_C7_witness :
    (((twoNodeGraph.add_node 9).2.Wf ∧ (twoNodeGraph.add_node 9).2.Symm) ∧
     (∀ i j w g2, twoNodeGraph.add_edge i j w = some g2 → g2.Wf ∧ g2.Symm) ∧
     (∀ m g2, twoNodeGraph.update_from_matching m = some g2 → g2.Wf ∧ g2.Symm)) :=
  claim_C7_invariants twoNodeGraph 9 (by decide) (by decide)

/-- C8: with an empty waiting set, trigger_matching terminates
successfully and leaves the store untouched: no generation allocated, no
match rows recorded, no waiting flags changed. -/
theorem claim_C8_empty_round (db : Database) (h : db.waiters = []) :
    trigger_matching db = some db := by
  unfold trigger_matching
  rw [h]
  simp

/-- C8 witness: the empty round on a concrete store with one non-waiting
person. -/
theorem claim_C8_witness : trigger_matching dbNoWaiters = some dbNoWaiters :=
  claim_C8_empty_round dbNoWaiters (by decide)

/-! The edges upsert: effect on per-key weight sums (C5). -/

lemma upsert_sum_self (rows : List ((Nat × Nat) × Nat)) (a b : Nat) :
    (((Database.upsert_edge rows a b).filter
        (fun r => decide (r.1 = (a, b)))).map (fun r => r.2)).sum =
      ((rows.filter (fun r => decide (r.1 = (a, b)))).map (fun r => r.2)).sum + 1 := by
  induction rows with
  | nil => simp [Database.upsert_edge]
  | cons r rs ih =>
    unfold Database.upsert_edge
    by_cases hr : r.1 = (a, b)
    · rw [if_pos hr]
      simp [List.filter_cons, hr]
      omega
    · rw [if_neg hr]
      simp [List.filter_cons, hr, ih]

lemma upsert_sum_other (rows : List ((Nat × Nat) × Nat)) (a b : Nat)
    (k : Nat × Nat) (hk : k ≠ (a, b)) :
    (((Database.upsert_edge rows a b).filter
        (fun r => decide (r.1 = k))).map (fun r => r.2)).sum =
      ((rows.filter (fun r => decide (r.1 = k))).map (fun r => r.2)).sum := by
  have hne : ¬ ((a, b) : Nat × Nat) = k := fun he => hk he.symm
  induction rows with
  | nil => simp [Database.upsert_edge, hne]
  | cons r rs ih =>
    unfold Database.upsert_edge
    by_cases hr : r.1 = (a, b)
    · rw [if_pos hr]
      have hne : ¬ r.1 = k := by
        rw [hr]
        exact fun he => hk he.symm
      simp [List.filter_cons, hne]
    · rw [if_neg hr]
      by_cases hrk : r.1 = k
      · simp [List.filter_cons, hrk, ih]
      · simp [List.filter_cons, hrk, ih]

lemma upsert_mem (rows : List ((Nat × Nat) × Nat)) (a b : Nat)
    (hnd : (rows.map (fun r => r.1)).Nodup) :
    ((a, b),
      ((rows.filter (fun r => decide (r.1 = (a, b)))).map (fun r => r.2)).sum + 1) ∈
      Database.upsert_edge rows a b := by
  induction rows with
  | nil => simp [Database.upsert_edge]
  | cons r rs ih =>
    unfold Database.upsert_edge
    by_cases hr : r.1 = (a, b)
    · rw [if_pos hr]
      have hnot : (a, b) ∉ rs.map (fun r => r.1) := by
        have h1 : r.1 ∉ rs.map (fun r => r.1) := (List.nodup_cons.mp hnd).1
        rw [hr] at h1
        exact h1
      have hfil : rs.filter (fun r => decide (r.1 = (a, b))) = [] := by
        rw [List.filter_eq_nil]
        intro q hq
        simp only [decide_eq_true_eq]
        intro hc
        exact hnot (by
          rw [← hc]
          exact List.mem_map_of_mem _ hq)
      simp [List.filter_cons, hr, hfil]
    · rw [if_neg hr]
      have hrec := ih (List.nodup_cons.mp hnd).2
      refine List.mem_cons_of_mem _ ?_
      have hfl : (r :: rs).filter (fun r => decide (r.1 = (a, b))) =
          rs.filter (fun r => decide (r.1 = (a, b))) := by
        rw [List.filter_cons_of_neg (by simp [hr])]
      rw [hfl]
      exact hrec

/-- C5 counterexample: with a stored (1,2) row of weight 1, recording the
match as (2, 1) creates a second row keyed (2,1) instead of incrementing
the weight between 1 and 2: the subsequent edges_for query returns two
rows of weight 1 and no row carries the incremented value 2. -/
theorem claim_C5_counterexample :
    dbOriented.edges_for [1, 2] = [(1, 2, 1)] ∧
    (dbOriented.add_matching 2 (some 1) 1).edges_for [1, 2] =
      [(1, 2, 1), (2, 1, 1)] ∧
    ((dbOriented.add_matching 2 (some 1) 1).edges_for [1, 2]).filter
      (fun e => e.2.2 == 2) = [] := by
  decide

/-- C5 amended: record_match with a present partner upserts the row keyed
by the exact ordered pair (a,b): the total stored weight between a and b
(sum over both orientations) rises by exactly 1, the (b,a)-keyed weight is
untouched, and a subsequent edges_for over a set containing a and b
returns the (a,b)-oriented row with the incremented per-key value.  Only
when every recording uses the same orientation does a single row carry the
full pair history. -/
theorem claim_C5_weight_roundtrip_amended (db : Database) (a b gen : Nat)
    (hab : a ≠ b) (hkeys : (db.edges.map (fun r => r.1)).Nodup) :
    Database.totalWeight (db.add_matching a (some b) gen) a b =
      Database.totalWeight db a b + 1 ∧
    Database.keyWeight (db.add_matching a (some b) gen) a b =
      Database.keyWeight db a b + 1 ∧
    Database.keyWeight (db.add_matching a (some b) gen) b a =
      Database.keyWeight db b a ∧
    (a, b, Database.keyWeight db a b + 1) ∈
      (db.add_matching a (some b) gen).edges_for [a, b] := by
  have hedges : (db.add_matching a (some b) gen).edges =
      Database.upsert_edge db.edges a b := rfl
  have hba : ((b, a) : Nat × Nat) ≠ (a, b) := by
    intro he
    rw [Prod.mk.injEq] at he
    exact hab he.2
  have h1 : Database.keyWeight (db.add_matching a (some b) gen) a b =
      Database.keyWeight db a b + 1 := by
    unfold Database.keyWeight
    rw [hedges]
    exact upsert_sum_self db.edges a b
  have h2 : Database.keyWeight (db.add_matching a (some b) gen) b a =
      Database.keyWeight db b a := by
    unfold Database.keyWeight
    rw [hedges]
    exact upsert_sum_other db.edges a b (b, a) hba
  refine ⟨?_, h1, h2, ?_⟩
  · unfold Database.totalWeight
    omega
  · have hmem : ((a, b), Database.keyWeight db a b + 1) ∈
        (db.add_matching a (some b) gen).edges := by
      rw [hedges]
      exact upsert_mem db.edges a b hkeys
    unfold Database.edges_for
    apply List.mem_map.mpr
    refine ⟨((a, b), Database.keyWeight db a b + 1), ?_, rfl⟩
    apply List.mem_filter.mpr
    refine ⟨hmem, by simp⟩

/-- C5 witness: the amended round-trip evaluated on a store holding a
weight-3 row between 1 and 2. -/
theorem claim_C5_witness :
    Database.totalWeight (dbWeight3.add_matching 1 (some 2) 5) 1 2 =
      Database.totalWeight dbWeight3 1 2 + 1 ∧
    Database.keyWeight (dbWeight3.add_matching 1 (some 2) 5) 1 2 =
      Database.keyWeight dbWeight3 1 2 + 1 ∧
    Database.keyWeight (dbWeight3.add_matching 1 (some 2) 5) 2 1 =
      Database.keyWeight dbWeight3 2 1 ∧
    (1, 2, Database.keyWeight dbWeight3 1 2 + 1) ∈
      (dbWeight3.add_matching 1 (some 2) 5).edges_for [1, 2] :=
  claim_C5_weight_roundtrip_amended dbWeight3 1 2 5 (by decide) (by decide)

/-! One orchestrated round (C6): record-keeping and flag-clearing. -/

lemma isNone_map (f : Nat → Nat) (o : Option Nat) : (o.map f).isNone = o.isNone := by
  cases o <;> rfl

lemma add_matching_matchRows (db : Database) (p1 : Nat) (p2 : Option Nat) (gen : Nat) :
    (db.add_matching p1 p2 gen).matchRows = db.matchRows ++ [(gen, p1, p2)] := by
  cases p2 <;> rfl

lemma add_matching_cleared_mono (d : Database) (id x : Nat) (y : Option Nat) (gen : Nat)
    (h : ∀ b2, (id, b2) ∈ d.people → b2 = false) :
    ∀ b2, (id, b2) ∈ (d.add_matching x y gen).people → b2 = false := by
  intro b2 hb2
  cases y with
  | some p2 =>
    obtain ⟨q, hq, hfq⟩ := List.mem_map.mp hb2
    by_cases hc : q.1 = x ∨ q.1 = p2
    · rw [if_pos hc] at hfq
      exact ((Prod.mk.injEq _ _ _ _).mp hfq).2.symm
    · rw [if_neg hc] at hfq
      rw [hfq] at hq
      exact h b2 hq
  | none =>
    obtain ⟨q, hq, hfq⟩ := List.mem_map.mp hb2
    by_cases hc : q.1 = x
    · rw [if_pos hc] at hfq
      exact ((Prod.mk.injEq _ _ _ _).mp hfq).2.symm
    · rw [if_neg hc] at hfq
      rw [hfq] at hq
      exact h b2 hq

lemma add_matching_cleared_set (d : Database) (id x : Nat) (y : Option Nat) (gen : Nat)
    (hcover : x = id ∨ y = some id) :
    ∀ b2, (id, b2) ∈ (d.add_matching x y gen).people → b2 = false := by
  intro b2 hb2
  cases y with
  | some p2 =>
    obtain ⟨q, hq, hfq⟩ := List.mem_map.mp hb2
    by_cases hc : q.1 = x ∨ q.1 = p2
    · rw [if_pos hc] at hfq
      exact ((Prod.mk.injEq _ _ _ _).mp hfq).2.symm
    · rw [if_neg hc] at hfq
      exfalso
      apply hc
      have hq1 : q.1 = id := by rw [hfq]
      rcases hcover with h1 | h2
      · exact Or.inl (by rw [hq1, ← h1])
      · have hp2 : p2 = id := Option.some.inj h2
        exact Or.inr (by rw [hq1, ← hp2])
  | none =>
    obtain ⟨q, hq, hfq⟩ := List.mem_map.mp hb2
    have hx : x = id := by
      rcases hcover with h1 | h2
      · exact h1
      · cases h2
    by_cases hc : q.1 = x
    · rw [if_pos hc] at hfq
      exact ((Prod.mk.injEq _ _ _ _).mp hfq).2.symm
    · rw [if_neg hc] at hfq
      exfalso
      apply hc
      rw [hfq, hx]

lemma fold_add_matching_cleared (ws : List Nat) (gen : Nat) :
    ∀ (m : List (Nat × Option Nat)) (d : Database) (id : Nat),
      ((∀ b2, (id, b2) ∈ d.people → b2 = false) ∨
       (∃ p ∈ m, ws.getD p.1 0 = id ∨ p.2.map (fun j => ws.getD j 0) = some id)) →
      ∀ b2, (id, b2) ∈ (m.foldl (fun d p =>
          d.add_matching (ws.getD p.1 0) (p.2.map (fun j => ws.getD j 0)) gen) d).people →
        b2 = false := by
  intro m
  induction m with
  | nil =>
    rintro d id (h | ⟨p, hp, _⟩)
    · exact h
    · cases hp
  | cons p t ih =>
    intro d id hcase b2 hb2
    rw [List.foldl_cons] at hb2
    refine ih (d.add_matching (ws.getD p.1 0) (p.2.map (fun j => ws.getD j 0)) gen)
      id ?_ b2 hb2
    rcases hcase with hcl | ⟨q, hq, hcover⟩
    · exact Or.inl (add_matching_cleared_mono d id _ _ gen hcl)
    · rcases List.mem_cons.mp hq with hq1 | hqt
      · refine Or.inl (add_matching_cleared_set d id _ _ gen ?_)
        rw [hq1] at hcover
        exact hcover
      · exact Or.inr ⟨q, hqt, hcover⟩

lemma fold_add_matching_rows (ws : List Nat) (gen : Nat) :
    ∀ (m : List (Nat × Option Nat)) (d : Database),
      (m.foldl (fun d p =>
          d.add_matching (ws.getD p.1 0) (p.2.map (fun j => ws.getD j 0)) gen) d).matchRows =
        d.matchRows ++ m.map (fun p =>
          (gen, ws.getD p.1 0, p.2.map (fun j => ws.getD j 0))) := by
  intro m
  induction m with
  | nil => intro d; simp
  | cons p t ih =>
    intro d
    rw [List.foldl_cons, ih, add_matching_matchRows]
    simp

lemma add_edge_isSome_iff (g : Graph) (i j w : Nat) :
    (g.add_edge i j w).isSome = true ↔
      (i < g.nodes.length ∧ j < g.nodes.length) := by
  unfold Graph.add_edge
  by_cases h1 : i < g.nodes.length
  · by_cases h2 : j < g.nodes.length
    · simp [h1, h2]
    · simp [h1, h2]
  · simp [h1]

lemma fold_add_node_wf :
    ∀ (l : List Nat) (g : Graph), g.Wf →
      (l.foldl (fun g w => (g.add_node w).2) g).Wf ∧
      (l.foldl (fun g w => (g.add_node w).2) g).nodes.length =
        g.nodes.length + l.length := by
  intro l
  induction l with
  | nil => intro g hwf; exact ⟨hwf, by simp⟩
  | cons a t ih =>
    intro g hwf
    rw [List.foldl_cons]
    obtain ⟨hwf2, hlen2⟩ := wf_add_node g hwf a
    obtain ⟨hwf3, hlen3⟩ := ih (g.add_node a).2 hwf2
    refine ⟨hwf3, ?_⟩
    rw [hlen3, hlen2]
    simp
    omega

lemma build_graph_some (ws : List Nat) (edges : List (Nat × Nat × Nat))
    (hmem : ∀ e ∈ edges, e.1 ∈ ws ∧ e.2.1 ∈ ws) :
    ∃ g, build_graph ws edges = some g ∧ g.Wf ∧ g.nodes.length = ws.length := by
  unfold build_graph
  obtain ⟨hwf0, hlen0⟩ := fold_add_node_wf ws ⟨[], []⟩ ⟨rfl, by intro r hr; cases hr⟩
  have hmain : ∀ (es : List (Nat × Nat × Nat)) (g : Graph), g.Wf →
      g.nodes.length = ws.length → (∀ e ∈ es, e.1 ∈ ws ∧ e.2.1 ∈ ws) →
      ∃ g2, es.foldlM (fun g e =>
          g.add_edge (ws.indexOf e.1) (ws.indexOf e.2.1) e.2.2) g = some g2 ∧
        g2.Wf ∧ g2.nodes.length = ws.length := by
    intro es
    induction es with
    | nil =>
      intro g hwf hlen _
      exact ⟨g, rfl, hwf, hlen⟩
    | cons e t ih =>
      intro g hwf hlen hm
      have h1 : ws.indexOf e.1 < g.nodes.length := by
        rw [hlen]
        exact List.indexOf_lt_length.mpr (hm e (List.mem_cons_self e t)).1
      have h2 : ws.indexOf e.2.1 < g.nodes.length := by
        rw [hlen]
        exact List.indexOf_lt_length.mpr (hm e (List.mem_cons_self e t)).2
      obtain ⟨g1, hg1⟩ := Option.isSome_iff_exists.mp
        ((add_edge_isSome_iff g (ws.indexOf e.1) (ws.indexOf e.2.1) e.2.2).mpr ⟨h1, h2⟩)
      obtain ⟨hwf1, hnodes1⟩ := wf_add_edge g hwf _ _ _ g1 hg1
      obtain ⟨g2, hg2, hwf2, hlen2⟩ := ih g1 hwf1
        (by rw [hnodes1]; exact hlen)
        (fun e2 he2 => hm e2 (List.mem_cons_of_mem _ he2))
      refine ⟨g2, ?_, hwf2, hlen2⟩
      rw [List.foldlM_cons, hg1]
      exact hg2
  obtain ⟨g2, hg2, hwf2, hlen2⟩ := hmain edges _ hwf0 (by rw [hlen0]; simp) hmem
  exact ⟨g2, hg2, hwf2, hlen2⟩

lemma edges_for_mem_waiters (db : Database) (ws : List Nat) :
    ∀ e ∈ db.edges_for ws, e.1 ∈ ws ∧ e.2.1 ∈ ws := by
  intro e he
  unfold Database.edges_for at he
  obtain ⟨r, hr, hre⟩ := List.mem_map.mp he
  have hf := (List.mem_filter.mp hr).2
  rw [Bool.and_eq_true] at hf
  rw [← hre]
  constructor
  · have := hf.1
    simpa [List.contains, List.elem_eq_mem] using this
  · have := hf.2
    simpa [List.contains, List.elem_eq_mem] using this

lemma matching_covers (g : Graph) (hwf : g.Wf) :
    (∀ k, k ∈ Graph.coveredIdx g.matching ↔ k < g.nodes.length) ∧
    (g.matching.filter (fun m => m.2.isNone)).length = g.nodes.length % 2 := by
  obtain ⟨_, _, _, _, P5, _, P7, _⟩ :=
    matchingAux_spec g hwf g.nodes.length 0 (List.replicate g.nodes.length false)
      (by omega) (by simp) (Or.inl (fun k hk => absurd hk (by omega)))
  have hu := unseenCount_replicate g.nodes.length
  unfold Graph.matching
  constructor
  · intro k
    rw [P5 k]
    simp [seenGet_replicate]
  · rw [P7, hu]

/-- C6: for a non-empty waiting set, one orchestrated round records a
match row (at the freshly allocated generation) for every participant who
was waiting at its start — each appearing as person1 or person2 of some
row, with exactly waiting-count mod 2 rows having an absent partner — and
clears the waiting flag of every one of those participants, singleton
included. -/
theorem claim_C6_round_records_all (db : Database) (hne : db.waiters ≠ []) :
    ∃ (db2 : Database) (rows : List (Nat × Nat × Option Nat)),
      trigger_matching db = some db2 ∧
      db2.matchRows = db.matchRows ++ rows ∧
      (∀ id ∈ db.waiters, ∃ r ∈ rows,
        r.1 = db.add_matching_generation.1 ∧ (r.2.1 = id ∨ r.2.2 = some id)) ∧
      (rows.filter (fun r => r.2.2.isNone)).length = db.waiters.length % 2 ∧
      (∀ q ∈ db2.people, q.1 ∈ db.waiters → q.2 = false) := by
  have hwsne : db.waiters.isEmpty = false := by
    cases hws : db.waiters with
    | nil => exact absurd hws hne
    | cons a t => rfl
  obtain ⟨g, hg, hwf, hglen⟩ :=
    build_graph_some db.waiters (db.edges_for db.waiters)
      (edges_for_mem_waiters db db.waiters)
  have htrig : trigger_matching db = some ((g.matching).foldl
      (fun d p => d.add_matching (db.waiters.getD p.1 0)
        (p.2.map (fun j => db.waiters.getD j 0)) db.add_matching_generation.1)
      db.add_matching_generation.2) := by
    unfold trigger_matching
    simp only [hwsne, Bool.false_eq_true, if_false, hg]
  refine ⟨_, (g.matching).map (fun p =>
      (db.add_matching_generation.1, db.waiters.getD p.1 0,
       p.2.map (fun j => db.waiters.getD j 0))), htrig, ?_, ?_, ?_, ?_⟩
  · rw [fold_add_matching_rows]
    rfl
  · intro id hid
    obtain ⟨⟨k, hk⟩, hget⟩ := List.mem_iff_get.mp hid
    have hkn : k < g.nodes.length := by
      rw [hglen]
      exact hk
    have hkcov : k ∈ Graph.coveredIdx g.matching :=
      ((matching_covers g hwf).1 k).mpr hkn
    obtain ⟨p, hp, hcase⟩ := (mem_coveredIdx _ _).mp hkcov
    refine ⟨(db.add_matching_generation.1, db.waiters.getD p.1 0,
        p.2.map (fun j => db.waiters.getD j 0)),
      List.mem_map_of_mem _ hp, rfl, ?_⟩
    have hgetD : db.waiters.getD k 0 = id := by
      rw [List.getD_eq_get _ _ hk]
      exact hget
    rcases hcase with h1 | h2
    · left
      show db.waiters.getD p.1 0 = id
      rw [h1, hgetD]
    · right
      show p.2.map (fun j => db.waiters.getD j 0) = some id
      rw [h2]
      show some (db.waiters.getD k 0) = some id
      rw [hgetD]
  · rw [← List.countP_eq_length_filter, List.countP_map]
    have hcg : (g.matching).countP
        ((fun (r : Nat × Nat × Option Nat) => r.2.2.isNone) ∘ (fun p =>
          (db.add_matching_generation.1, db.waiters.getD p.1 0,
           p.2.map (fun j => db.waiters.getD j 0)))) =
        (g.matching).countP (fun p => p.2.isNone) := by
      apply List.countP_congr
      intro p _
      show (p.2.map (fun j => db.waiters.getD j 0)).isNone = true ↔ p.2.isNone = true
      rw [isNone_map]
    rw [hcg, List.countP_eq_length_filter, (matching_covers g hwf).2, hglen]
  · intro q hq hqw
    obtain ⟨⟨k, hk⟩, hget⟩ := List.mem_iff_get.mp hqw
    have hkn : k < g.nodes.length := by
      rw [hglen]
      exact hk
    have hkcov : k ∈ Graph.coveredIdx g.matching :=
      ((matching_covers g hwf).1 k).mpr hkn
    obtain ⟨p, hp, hcase⟩ := (mem_coveredIdx _ _).mp hkcov
    have hgetD : db.waiters.getD k 0 = q.1 := by
      rw [List.getD_eq_get _ _ hk]
      exact hget
    have hcover : db.waiters.getD p.1 0 = q.1 ∨
        p.2.map (fun j => db.waiters.getD j 0) = some q.1 := by
      rcases hcase with h1 | h2
      · left
        rw [h1, hgetD]
      · right
        rw [h2]
        show some (db.waiters.getD k 0) = some q.1
        rw [hgetD]
    have hmem : (q.1, q.2) ∈ ((g.matching).foldl
        (fun d p => d.add_matching (db.waiters.getD p.1 0)
          (p.2.map (fun j => db.waiters.getD j 0)) db.add_matching_generation.1)
        db.add_matching_generation.2).people := hq
    exact fold_add_matching_cleared db.waiters db.add_matching_generation.1
      (g.matching) db.add_matching_generation.2 q.1
      (Or.inr ⟨p, hp, hcover⟩) q.2 hmem

/-- C6 witness: a full round on a concrete store with two waiting
participants. -/
theorem claim_C6_witness :
    ∃ (db2 : Database) (rows : List (Nat × Nat × Option Nat)),
      trigger_matching dbTwoWaiters = some db2 ∧
      db2.matchRows = dbTwoWaiters.matchRows ++ rows ∧
      (∀ id ∈ dbTwoWaiters.waiters, ∃ r ∈ rows,
        r.1 = dbTwoWaiters.add_matching_generation.1 ∧
        (r.2.1 = id ∨ r.2.2 = some id)) ∧
      (rows.filter (fun r => r.2.2.isNone)).length =
        dbTwoWaiters.waiters.length % 2 ∧
      (∀ q ∈ db2.people, q.1 ∈ dbTwoWaiters.waiters → q.2 = false) :=
  claim_C6_round_records_all dbTwoWaiters (by decide)
